import Mathlib

/-!
Verification of the statement-classification and tabular-normalization core of
the financial-analyzer backend (`normalize.py`, `parse_pdf.py`,
`detect_statements.py`).

Modelling conventions:
* Text is modelled as `List Nat` of Unicode code points; `codes` converts a
  Lean string literal for readability.  Whitespace and lower-casing are
  modelled over the ASCII range, which is the range the source data and the
  fixed vocabularies use.
* Python `float` parsing is modelled by `parseFloatQ` over `ℚ`, covering the
  sign / digits / decimal point / exponent forms (the `inf`/`nan` and
  digit-underscore forms of the Python grammar are outside the model).
* Machine floats are modelled by exact rationals; every numeric literal the
  claims mention is exactly representable.
* `pandas` tables are modelled by `RawTable`: a list of column headers and a
  list of rows of cell strings.  Column lookup by header name in the source
  is modelled by positional lookup, which coincides with the source whenever
  the header names are pairwise distinct (the tables produced by the
  extractor); theorems that depend on it carry a `Nodup` hypothesis.
-/

attribute [local semireducible] Rat.mul Rat.add Rat.inv Rat.sub Rat.ofScientific

namespace FinAnalyzer

/-- Code points of a string literal, the reading of our `List Nat` text model. -/
def codes (s : String) : List Nat := s.toList.map Char.toNat

/-- ASCII whitespace, the model of Python whitespace for `strip` and `\s`. -/
def isWs (c : Nat) : Bool := decide (c = 32 ∨ c = 9 ∨ c = 10 ∨ c = 13 ∨ c = 11 ∨ c = 12)

/-- ASCII decimal digit. -/
def isDigit (c : Nat) : Bool := decide (48 ≤ c ∧ c ≤ 57)

/-- Model of Python `str.strip()`: drop whitespace from both ends. -/
def trimWs (l : List Nat) : List Nat :=
  ((l.dropWhile isWs).reverse.dropWhile isWs).reverse

/-- Numeric value of a digit-code list read in decimal. -/
def digitsVal (ds : List Nat) : Nat := ds.foldl (fun a d => a * 10 + (d - 48)) 0

/-- Exponent part of a float literal: empty, or `e`/`E`, optional sign, digits. -/
def parseExp (l : List Nat) : Option Int :=
  match l with
  | [] => some 0
  | e :: rest =>
    if e = 101 ∨ e = 69 then
      let (sgn, rest2) : Int × List Nat :=
        match rest with
        | 43 :: r => (1, r)
        | 45 :: r => (-1, r)
        | r => (1, r)
      let (ds, rest3) := rest2.span isDigit
      if ds = [] ∨ rest3 ≠ [] then none
      else some (sgn * (digitsVal ds : Int))
    else none

/-- Mantissa of a float literal: `d+`, `d+.d*`, or `.d+`; returns its value and
the unconsumed rest. -/
def parseMantissa (l : List Nat) : Option (ℚ × List Nat) :=
  let (d1, r1) := l.span isDigit
  match r1 with
  | 46 :: r2 =>
    let (d2, r3) := r2.span isDigit
    if d1 = [] ∧ d2 = [] then none
    else some ((digitsVal d1 : ℚ) + (digitsVal d2 : ℚ) / (10 : ℚ) ^ d2.length, r3)
  | _ => if d1 = [] then none else some ((digitsVal d1 : ℚ), r1)

/-- Signed float literal body: optional sign, mantissa, optional exponent,
with nothing left over. -/
def parseFloatCore (l : List Nat) : Option ℚ :=
  let (sgn, l') : ℚ × List Nat :=
    match l with
    | 43 :: r => (1, r)
    | 45 :: r => (-1, r)
    | r => (1, r)
  match parseMantissa l' with
  | none => none
  | some (m, rest) =>
    match parseExp rest with
    | none => none
    | some e => some (sgn * m * (10 : ℚ) ^ e)

/-- Model of Python `float(s)` (finite decimal forms): strip surrounding
whitespace, then parse the signed literal. -/
def parseFloatQ (l : List Nat) : Option ℚ := parseFloatCore (trimWs l)

/-- The regex `^\(.*\)$` of `_to_number`: the whole string is wrapped in
parentheses and the interior contains no newline (`.` does not match `\n`). -/
def parenWrapped (s : List Nat) : Bool :=
  decide (2 ≤ s.length ∧ s.headD 0 = 40 ∧ s.getLastD 0 = 41 ∧ 10 ∉ (s.drop 1).dropLast)

/-- Comma removal of `_to_number` (`s.replace(",", "")`). -/
def stripCommas (s : List Nat) : List Nat := s.filter (fun c => decide (c ≠ 44))

/-- Parenthesis negation of `_to_number`: `(x)` becomes `-x`. -/
def negParen (s : List Nat) : List Nat :=
  if parenWrapped s then 45 :: (s.drop 1).dropLast else s

/-- The residual text `_to_number` hands to `float`: trimmed, commas stripped,
parenthesis negation applied. -/
def residual (x : List Nat) : List Nat := negParen (stripCommas (trimWs x))

/-- `_to_number` of `normalize.py`: the ValueCoercer.  The placeholder set is
`{"", "-", "—", "–"}` (em dash 8212, en dash 8211); any parse failure yields
`none` (the bare `except` of the source). -/
def toNumber (x : List Nat) : Option ℚ :=
  let s := trimWs x
  if s = [] ∨ s = [45] ∨ s = [8212] ∨ s = [8211] then none
  else parseFloatQ (negParen (stripCommas s))

example : toNumber (codes "(1,234)") = some (-1234) := by decide
example : toNumber (codes "1,234") = some 1234 := by decide
example : toNumber [8212] = none := by decide
example : toNumber (codes "12.5") = some (25 / 2) := by decide
example : toNumber (codes "-3e2") = some (-300) := by decide
example : toNumber (codes "abc") = none := by decide
example : toNumber (codes "") = none := by decide
example : toNumber (codes "-") = none := by decide
example : toNumber (codes "(12") = none := by decide
example : toNumber (codes " 7 ") = some 7 := by decide

/-- ASCII model of Python `str.lower` (and of `re.I` when both sides are
lowered): map `A`-`Z` to `a`-`z`. -/
def toLowerCode (c : Nat) : Nat := if 65 ≤ c ∧ c ≤ 90 then c + 32 else c

/-- The `re.sub(r"\s+", " ", s)` step of `_clean_text`: replace every maximal
whitespace run by a single space. -/
def collapseWs : List Nat → List Nat
  | [] => []
  | [c] => [if isWs c then 32 else c]
  | c1 :: c2 :: rest =>
    if isWs c1 && isWs c2 then collapseWs (c2 :: rest)
    else (if isWs c1 then 32 else c1) :: collapseWs (c2 :: rest)

/-- `_clean_text` of `normalize.py`: collapse whitespace runs, trim, lowercase. -/
def cleanText (s : List Nat) : List Nat := (trimWs (collapseWs s)).map toLowerCode

example : cleanText (codes "  Total   Revenues ") = codes "total revenues" := by decide

/-- `INCOME_MAP` of `normalize.py`, in dict insertion order. -/
def INCOME_MAP : List (List Nat × List Nat) :=
  [(codes "total revenues", codes "revenue"), (codes "sales and revenue", codes "revenue"),
   (codes "net sales", codes "revenue"), (codes "revenue", codes "revenue"),
   (codes "cost of sales", codes "cogs"), (codes "cost of goods sold", codes "cogs"),
   (codes "gross profit", codes "gross_profit"),
   (codes "selling, general and administrative expenses", codes "sga"),
   (codes "research and engineering", codes "rd"), (codes "research and development", codes "rd"),
   (codes "operating income", codes "operating_income"),
   (codes "interest expense", codes "interest_expense"),
   (codes "provision for income taxes", codes "income_tax_expense"),
   (codes "income tax", codes "income_tax_expense"),
   (codes "net income/(loss)", codes "net_income"), (codes "net income", codes "net_income")]

/-- `BALANCE_MAP` of `normalize.py`, in dict insertion order. -/
def BALANCE_MAP : List (List Nat × List Nat) :=
  [(codes "cash and cash equivalents", codes "cash"),
   (codes "accounts receivable", codes "receivables"),
   (codes "trade receivables", codes "receivables"),
   (codes "inventories", codes "inventory"),
   (codes "total current assets", codes "total_current_assets"),
   (codes "property, plant and equipment", codes "ppe"),
   (codes "total assets", codes "total_assets"),
   (codes "accounts payable", codes "accounts_payable"),
   (codes "total current liabilities", codes "total_current_liabilities"),
   (codes "long-term debt", codes "long_term_debt"),
   (codes "total liabilities", codes "total_liabilities"),
   (codes "total stockholders\x27 equity", codes "total_equity"),
   (codes "total equity", codes "total_equity")]

/-- `CASHFLOWS_MAP` of `normalize.py`, in dict insertion order. -/
def CASHFLOWS_MAP : List (List Nat × List Nat) :=
  [(codes "net cash provided by/(used in) operating activities", codes "cfo"),
   (codes "net cash provided by/(used in) investing activities", codes "cfi"),
   (codes "net cash provided by/(used in) financing activities", codes "cff"),
   (codes "cash, cash equivalents, and restricted cash at end of period", codes "cash_end")]

/-- The statement-type dispatch of `_canonical_name`: unknown types get the
empty vocabulary. -/
def mapsFor (stype : List Nat) : List (List Nat × List Nat) :=
  if stype = codes "Income Statement" then INCOME_MAP
  else if stype = codes "Balance Sheet" then BALANCE_MAP
  else if stype = codes "Cash Flows" then CASHFLOWS_MAP
  else []

/-- Boolean list-prefix test. -/
def isPre : List Nat → List Nat → Bool
  | [], _ => true
  | _ :: _, [] => false
  | a :: as_, b :: bs => a == b && isPre as_ bs

/-- Python substring containment `k in r`. -/
def hasSub (pat : List Nat) : List Nat → Bool
  | [] => isPre pat []
  | c :: rest => isPre pat (c :: rest) || hasSub pat rest

example : hasSub (codes "come ta") (codes "income tax") = true := by decide
example : hasSub (codes "xyz") (codes "income tax") = false := by decide

/-- Insertion into a list sorted by decreasing phrase length; an element is
placed before the first phrase of equal or smaller length, matching the
stability of Python `sorted` with key `len` and `reverse=True`. -/
def insertByLen (p : List Nat × List Nat) : List (List Nat × List Nat) → List (List Nat × List Nat)
  | [] => [p]
  | q :: qs => if p.1.length < q.1.length then q :: insertByLen p qs else p :: q :: qs

/-- The `sorted(maps.items(), key=len, reverse=True)` of `_canonical_name`:
stable sort by decreasing phrase length. -/
def sortByLen : List (List Nat × List Nat) → List (List Nat × List Nat)
  | [] => []
  | p :: ps => insertByLen p (sortByLen ps)

/-- `_canonical_name` of `normalize.py`: the Canonicalizer.  Clean the label,
try phrases longest first, return the matched canonical key or the cleaned
label as passthrough. -/
def canonicalName (raw stype : List Nat) : List Nat :=
  let r := cleanText raw
  match (sortByLen (mapsFor stype)).find? (fun kv => hasSub kv.1 r) with
  | some kv => kv.2
  | none => r

example : canonicalName (codes "Total Revenues") (codes "Income Statement") = codes "revenue" := by
  decide
example : canonicalName (codes "Some Unmapped Line") (codes "Income Statement") =
    codes "some unmapped line" := by decide
example : canonicalName (codes "  Net  Income/(Loss) ") (codes "Income Statement") =
    codes "net_income" := by decide

/-- A raw table: ordered column headers and ordered rows of cell strings
(the DataFrame handed to `normalize_statement`). -/
structure RawTable where
  headers : List (List Nat)
  rows : List (List (List Nat))
deriving DecidableEq

/-- The cells of column `i`, top to bottom. -/
def colCells (t : RawTable) (i : Nat) : List (List Nat) := t.rows.map (fun r => r.getD i [])

/-- `_mostly_numeric` of `normalize.py`: fraction of the column's cells that
`_to_number` parses (cells are strings, so the `dropna` of the source drops
nothing; empty strings stay in the denominator). -/
def mostlyNumeric (cells : List (List Nat)) : ℚ :=
  if cells.length = 0 then 0
  else (cells.countP (fun v => (toNumber v).isSome) : ℚ) / (cells.length : ℚ)

/-- The regex `(19|20)\d{2}` searched in a header: some position starts with
`19` or `20` followed by two digits. -/
def yearRe : List Nat → Bool
  | a :: b :: c :: d :: rest =>
    (decide ((a = 49 ∧ b = 57) ∨ (a = 50 ∧ b = 48)) && isDigit c && isDigit d)
      || yearRe (b :: c :: d :: rest)
  | _ => false

example : yearRe (codes "FY 2023") = true := by decide
example : yearRe (codes "FY 20") = false := by decide

/-- The per-column score record of `_pick_label_and_values`. -/
structure ColScore where
  idx : Nat
  yflag : Bool
  ratio : ℚ
deriving DecidableEq

/-- The score list of `_pick_label_and_values`, one record per column in
original order. -/
def scores (t : RawTable) : List ColScore :=
  (List.range t.headers.length).map
    (fun i => ⟨i, yearRe (t.headers.getD i []), mostlyNumeric (colCells t i)⟩)

/-- The Python tuple order on `(num_ratio, year_flag, idx)` keys
(`False < True` for booleans). -/
def keyLE (a b : ColScore) : Prop :=
  a.ratio < b.ratio ∨
    (a.ratio = b.ratio ∧
      ((a.yflag = false ∧ b.yflag = true) ∨ (a.yflag = b.yflag ∧ a.idx ≤ b.idx)))

instance : DecidablePred (fun p : ColScore × ColScore => keyLE p.1 p.2) := by
  intro p; unfold keyLE; infer_instance

instance (a b : ColScore) : Decidable (keyLE a b) := by unfold keyLE; infer_instance

/-- Insertion step of the sort by `keyLE`. -/
def insertScore (x : ColScore) : List ColScore → List ColScore
  | [] => [x]
  | y :: ys => if keyLE x y then x :: y :: ys else y :: insertScore x ys

/-- The `sorted(scores, key=(num_ratio, year_flag, idx))` of
`_pick_label_and_values`. -/
def sortScores : List ColScore → List ColScore
  | [] => []
  | x :: xs => insertScore x (sortScores xs)

/-- Python `l[-3:]`: the rightmost `n` elements. -/
def lastN (n : Nat) (l : List α) : List α := l.drop (l.length - n)

/-- `_pick_label_and_values` of `normalize.py`: the ColumnClassifier.  Returns
`(label column index, value column indices)`; `(none, [])` when the table has
no columns.  Column identity comparisons of the source (`s["col"] !=
label_col`) compare header names. -/
def pickLabelAndValues (t : RawTable) : Option Nat × List Nat :=
  let cols := t.headers
  if cols.length = 0 then (none, [])
  else
    let sc := scores t
    let labIdx := ((sortScores sc).headD ⟨0, false, 0⟩).idx
    let labName := cols.getD labIdx []
    let valueIdxs := (sc.filter (fun s =>
      decide (cols.getD s.idx [] ≠ labName) && (s.yflag || decide ((1 : ℚ)/2 ≤ s.ratio)))).map ColScore.idx
    let valueIdxs := if valueIdxs = [] then
      lastN 3 ((List.range cols.length).filter (fun i => decide (cols.getD i [] ≠ labName)))
    else valueIdxs
    (some labIdx, lastN 3 valueIdxs)

/-- A tidy table: standard column names and rows of
`(line_item, value cells)`. -/
structure TidyTable where
  cols : List (List Nat)
  rows : List (List Nat × List (Option ℚ))
deriving DecidableEq

/-- Fuel-driven decimal rendering; the fuel only needs to be at least the
argument, see `natCodes_eq`. -/
def natCodesAux : Nat → Nat → List Nat
  | 0, n => [48 + n % 10]
  | fuel + 1, n => if n < 10 then [48 + n] else natCodesAux fuel (n / 10) ++ [48 + n % 10]

/-- Decimal digit codes of a natural number (the f-string rendering
`f"col{i}"` / `f"{col}.{n}"` of the source). -/
def natCodes (n : Nat) : List Nat := natCodesAux n n

theorem natCodesAux_congr : ∀ f1 f2 n : Nat, n ≤ f1 → n ≤ f2 →
    natCodesAux f1 n = natCodesAux f2 n := by
  intro f1
  induction f1 with
  | zero =>
    intro f2 n h1 _
    interval_cases n
    cases f2 <;> simp [natCodesAux]
  | succ g1 ih =>
    intro f2 n h1 h2
    by_cases hn : n < 10
    · cases f2 with
      | zero => interval_cases n; simp [natCodesAux]
      | succ g2 => simp [natCodesAux, hn]
    · cases f2 with
      | zero => omega
      | succ g2 =>
        simp only [natCodesAux, if_neg hn]
        have hd : n / 10 < n := Nat.div_lt_self (by omega) (by omega)
        rw [ih g2 (n / 10) (by omega) (by omega)]

theorem natCodes_eq (n : Nat) :
    natCodes n = if n < 10 then [48 + n] else natCodes (n / 10) ++ [48 + n % 10] := by
  by_cases hn : n < 10
  · cases n with
    | zero => simp [natCodes, natCodesAux]
    | succ m => simp [natCodes, natCodesAux, hn]
  · have hpos : n ≠ 0 := by omega
    cases hh : n with
    | zero => omega
    | succ m =>
      simp only [if_neg hn, natCodes, natCodesAux]
      rw [if_neg (by omega)]
      have hd : n / 10 < n := Nat.div_lt_self (by omega) (by omega)
      rw [natCodesAux_congr m (Nat.succ m / 10) (Nat.succ m / 10) (by omega) (by omega)]
      rw [if_neg (by omega)]

example : natCodes 312 = codes "312" := by decide

/-- The empty tidy frame `pd.DataFrame(columns=["line_item","col1","col2","col3"])`. -/
def emptyTidy : TidyTable :=
  ⟨[codes "line_item", codes "col1", codes "col2", codes "col3"], []⟩

/-- One transformed row of `normalize_statement`: canonicalized label and
coerced value cells. -/
def tidyRow (stype : List Nat) (lab : Nat) (vals : List Nat) (r : List (List Nat)) :
    List Nat × List (Option ℚ) :=
  (canonicalName (r.getD lab []) stype, vals.map (fun i => toNumber (r.getD i [])))

/-- `normalize_statement` of `normalize.py`: the NormalizationPipeline.  A
missing frame or one with no rows (or no columns: `df.empty`) yields the
standard empty frame; otherwise classify columns, canonicalize labels, coerce
values, and when there is at least one value column drop the rows whose value
cells are all null.  The inner `none` branch is unreachable (the classifier
returns a label for nonempty headers). -/
def normalizeStatement (odf : Option RawTable) (stype : List Nat) : TidyTable :=
  match odf with
  | none => emptyTidy
  | some t =>
    if t.rows = [] ∨ t.headers = [] then emptyTidy
    else
      match pickLabelAndValues t with
      | (none, _) => emptyTidy
      | (some lab, vals) =>
        let rows1 := t.rows.map (tidyRow stype lab vals)
        let rows2 := if vals = [] then rows1 else rows1.filter (fun p => p.2.any Option.isSome)
        ⟨codes "line_item" :: (List.range vals.length).map (fun i => codes "col" ++ natCodes (i + 1)),
         rows2⟩

example :
    pickLabelAndValues ⟨[codes "Item", codes "2023", codes "2022"],
      [[codes "Revenue", codes "10", codes "9"], [codes "COGS", codes "4", codes "3"]]⟩ =
    (some 0, [1, 2]) := by decide

example :
    normalizeStatement (some ⟨[codes "Item", codes "2023"],
      [[codes "Total Revenues", codes "10"], [codes "Note", codes "n/a"]]⟩)
      (codes "Income Statement") =
    ⟨[codes "line_item", codes "col1"], [(codes "revenue", [some 10])]⟩ := by decide

/-- `_make_cols_unique` of `parse_pdf.py`, with the `counts` dict modelled as
a function that is `0` on unseen names. -/
def makeColsUniqueGo : List (List Nat) → (List Nat → Nat) → List (List Nat)
  | [], _ => []
  | c :: rest, counts =>
    if counts c = 0 then
      c :: makeColsUniqueGo rest (fun x => if x = c then 1 else counts x)
    else
      (c ++ 46 :: natCodes (counts c + 1)) ::
        makeColsUniqueGo rest (fun x => if x = c then counts c + 1 else counts x)

/-- `_make_cols_unique` of `parse_pdf.py`: suffix repeated header names with
`.2`, `.3`, ... in order of appearance. -/
def makeColsUnique (cols : List (List Nat)) : List (List Nat) :=
  makeColsUniqueGo cols (fun _ => 0)

example : makeColsUnique [codes "a", codes "b", codes "a", codes "a"] =
    [codes "a", codes "b", codes "a.2", codes "a.3"] := by decide
example : makeColsUnique [codes "a", codes "a.2", codes "a"] =
    [codes "a", codes "a.2", codes "a.2"] := by decide

/-- The failure modes of `extract_tables`: the `ValueError` carrying the
requested page range, and the `IndexError` of promoting the header row of an
empty grid (`df.iloc[0]`). -/
inductive ExtractErr where
  | noTables (pages : List Nat)
  | indexErr
deriving DecidableEq

/-- Header promotion of `extract_tables`: the first row of the chosen grid
becomes the (deduplicated) header list, the remaining rows the data. -/
def promoteFirst (g : List (List (List Nat))) : Except ExtractErr RawTable :=
  match g with
  | [] => Except.error ExtractErr.indexErr
  | hdr :: rest => Except.ok ⟨makeColsUnique hdr, rest⟩

/-- `extract_tables` of `parse_pdf.py`, with the external engine calls
(`camelot.read_pdf`) replaced by the grids each strategy would return:
`lattice` is tried first, `stream` only when `lattice` found nothing, and the
first table of the succeeding strategy is promoted. -/
def extractTables (lattice stream : List (List (List (List Nat)))) (pages : List Nat) :
    Except ExtractErr RawTable :=
  let tables := if lattice.isEmpty then stream else lattice
  match tables with
  | [] => Except.error (ExtractErr.noTables pages)
  | g :: _ => promoteFirst g

/-- Prefix-consume a literal, the building block of the heading regexes. -/
def eatLit (lit l : List Nat) : Option (List Nat) :=
  if isPre lit l then some (l.drop lit.length) else none

/-- Consume `\s+`: at least one whitespace character, greedily. -/
def eatWs1 (l : List Nat) : Option (List Nat) :=
  match l with
  | [] => none
  | c :: rest => if isWs c then some (rest.dropWhile isWs) else none

/-- Match `consolidated\s+statements? of (operations|income)` at the start of
already-lowered text (the Income Statement pattern under `re.I`). -/
def matchIncomeAt (l : List Nat) : Bool :=
  (((eatLit (codes "consolidated") l).bind eatWs1).bind (fun l2 =>
    (eatLit (codes "statement") l2).bind (fun l3 =>
      let l4 := (eatLit (codes "s") l3).getD l3
      (eatLit (codes " of ") l4).map (fun l5 =>
        isPre (codes "operations") l5 || isPre (codes "income") l5)))).getD false

/-- Match `consolidated\s+balance sheets?` at the start of lowered text (the
optional trailing `s` constrains nothing). -/
def matchBalanceAt (l : List Nat) : Bool :=
  (((eatLit (codes "consolidated") l).bind eatWs1).map
    (fun l2 => isPre (codes "balance sheet") l2)).getD false

/-- Match `consolidated\s+statements? of cash flows` at the start of lowered
text. -/
def matchCashAt (l : List Nat) : Bool :=
  (((eatLit (codes "consolidated") l).bind eatWs1).bind (fun l2 =>
    (eatLit (codes "statement") l2).bind (fun l3 =>
      let l4 := (eatLit (codes "s") l3).getD l3
      (eatLit (codes " of cash flows") l4).map (fun _ => true)))).getD false

/-- `re.search`: try the anchored match at every suffix. -/
def searchWith (m : List Nat → Bool) : List Nat → Bool
  | [] => m []
  | c :: rest => m (c :: rest) || searchWith m rest

/-- The `STATEMENT_PATTERNS` dict of `detect_statements.py`: each statement
type's case-insensitive search, modelled by lowering the text first. -/
def patternFor (stype : List Nat) : Option (List Nat → Bool) :=
  if stype = codes "Income Statement" then
    some (fun text => searchWith matchIncomeAt (text.map toLowerCode))
  else if stype = codes "Balance Sheet" then
    some (fun text => searchWith matchBalanceAt (text.map toLowerCode))
  else if stype = codes "Cash Flows" then
    some (fun text => searchWith matchCashAt (text.map toLowerCode))
  else none

/-- `detect_pages` of `detect_statements.py`: the PageClassifier.  Pages are
the extracted texts in order; page numbering is 1-based; a statement type
absent from `STATEMENT_PATTERNS` reads as the empty list (the `defaultdict`). -/
def detectPages (texts : List (List Nat)) (stype : List Nat) : List Nat :=
  match patternFor stype with
  | none => []
  | some m => ((List.range texts.length).filter (fun k => m (texts.getD k []))).map (· + 1)

example :
    detectPages [[], [], [], [], codes "Consolidated Statements of Operations"]
      (codes "Income Statement") = [5] := by decide
example :
    detectPages [codes "CONSOLIDATED   BALANCE SHEETS", codes "Consolidated Statement of Cash Flows"]
      (codes "Balance Sheet") = [1] := by decide
example :
    detectPages [codes "CONSOLIDATED   BALANCE SHEETS", codes "Consolidated Statement of Cash Flows"]
      (codes "Cash Flows") = [2] := by decide

/-- Follows the spec's words (§4.3): numeric_ratio is the fraction of the
column's non-empty cells that the ValueCoercer parses; used only to compare
the spec's description with `_mostly_numeric`. -/
def specNumericRatio (cells : List (List Nat)) : ℚ :=
  let ne := cells.filter (fun c => decide (c ≠ []))
  if ne.length = 0 then 0
  else (ne.countP (fun v => (toNumber v).isSome) : ℚ) / (ne.length : ℚ)

/-- Follows the spec's words: the per-column scores with the spec's
numeric_ratio. -/
def specScores (t : RawTable) : List ColScore :=
  (List.range t.headers.length).map
    (fun i => ⟨i, yearRe (t.headers.getD i []), specNumericRatio (colCells t i)⟩)

/-- Follows the spec's words: the label column is the minimum of
`(numeric_ratio, year_flag, index)` with numeric_ratio over non-empty cells. -/
def specLabelIdx (t : RawTable) : Option Nat :=
  if t.headers.length = 0 then none
  else some ((sortScores (specScores t)).headD ⟨0, false, 0⟩).idx

/-- Follows the spec's words (§4.2): the i-th output header is the input
header, suffixed with `.` and its 1-based occurrence count when it repeats an
earlier header. -/
def dedupSpec (cols : List (List Nat)) : List (List Nat) :=
  (List.range cols.length).map (fun i =>
    let c := cols.getD i []
    let m := (cols.take i).count c
    if m = 0 then c else c ++ 46 :: natCodes (m + 1))

example : dedupSpec [codes "a", codes "b", codes "a", codes "a"] =
    [codes "a", codes "b", codes "a.2", codes "a.3"] := by decide

/-- Follows the spec's words (§4.3): the qualifying value-column set with
numeric_ratio computed over non-empty cells; used only to compare the spec's
description of value-column selection with the source. -/
def specQualIdxs (t : RawTable) (lab : Nat) : List Nat :=
  (List.range t.headers.length).filter
    (fun j => decide (j ≠ lab) &&
      (yearRe (t.headers.getD j []) || decide ((1 : ℚ)/2 ≤ specNumericRatio (colCells t j))))

/-- C3: `coerce(c)` is null iff the trimmed cell is one of the placeholder
strings (empty, ASCII hyphen, em dash, en dash) or the residual text fails the
numeric parse after comma-stripping and parenthesis-negation; otherwise it is
exactly the parsed decimal value of the residual text; and
`coerce("(1,234)") = -1234.0`, `coerce("1,234") = 1234.0`,
`coerce("—") = null`.  `toNumber` is a total Lean function, which models the
source's bare `except` returning `None`: no input raises. -/
theorem C3_coerce_null_iff (c : List Nat) :
    (toNumber c = none ↔
      ((trimWs c = [] ∨ trimWs c = [45] ∨ trimWs c = [8212] ∨ trimWs c = [8211]) ∨
        parseFloatQ (residual c) = none)) ∧
    toNumber c = (if trimWs c = [] ∨ trimWs c = [45] ∨ trimWs c = [8212] ∨ trimWs c = [8211]
      then none else parseFloatQ (residual c)) ∧
    toNumber (codes "(1,234)") = some (-1234) ∧
    toNumber (codes "1,234") = some 1234 ∧
    toNumber [8212] = none := by
  refine ⟨?_, rfl, by decide, by decide, by decide⟩
  unfold toNumber residual
  by_cases h : trimWs c = [] ∨ trimWs c = [45] ∨ trimWs c = [8212] ∨ trimWs c = [8211] <;>
    simp [h]

/-- C6: normalizing a missing table, or a table with no rows, yields the empty
tidy frame with the standard four column names and zero rows.  Both branches
are plain value computations in the model (the source returns
`pd.DataFrame(columns=[...])`), so no exception is possible. -/
theorem C6_empty_input (stype : List Nat) (t : RawTable) (h : t.rows = []) :
    normalizeStatement none stype =
      ⟨[codes "line_item", codes "col1", codes "col2", codes "col3"], []⟩ ∧
    normalizeStatement (some t) stype =
      ⟨[codes "line_item", codes "col1", codes "col2", codes "col3"], []⟩ := by
  constructor
  · rfl
  · simp [normalizeStatement, h, emptyTidy]

/-- Witness for C6 at a concrete statement type and concrete row-less table. -/
theorem C6_witness :
    normalizeStatement none (codes "Income Statement") =
      ⟨[codes "line_item", codes "col1", codes "col2", codes "col3"], []⟩ ∧
    normalizeStatement (some ⟨[codes "A", codes "B"], []⟩) (codes "Income Statement") =
      ⟨[codes "line_item", codes "col1", codes "col2", codes "col3"], []⟩ :=
  C6_empty_input (codes "Income Statement") ⟨[codes "A", codes "B"], []⟩ rfl

/-- C7: the ruling/line-based strategy (`lattice`) is consulted first — the
result never depends on the `stream` grids when `lattice` found a table — the
spacing-based strategy (`stream`) is used exactly when `lattice` found
nothing, `NoTablesFound` is raised iff both found nothing and it carries
exactly the requested page range, and on success the first table of the
succeeding strategy is promoted deterministically. -/
theorem C7_strategy_order (lat stm : List (List (List (List Nat)))) (p q : List Nat) :
    (extractTables [] [] p = Except.error (ExtractErr.noTables p)) ∧
    (extractTables lat stm p = Except.error (ExtractErr.noTables q) →
      lat = [] ∧ stm = [] ∧ q = p) ∧
    (lat ≠ [] → ∀ stm2, extractTables lat stm2 p = promoteFirst (lat.headD [])) ∧
    (stm ≠ [] → extractTables [] stm p = promoteFirst (stm.headD [])) := by
  refine ⟨rfl, ?_, ?_, ?_⟩
  · intro h
    match lat, stm with
    | [], [] =>
      refine ⟨rfl, rfl, ?_⟩
      simp only [extractTables, List.isEmpty_nil, if_pos rfl] at h
      cases h
      rfl
    | [], g :: gs =>
      exfalso
      simp only [extractTables, List.isEmpty_nil, if_pos rfl] at h
      cases g <;> simp [promoteFirst] at h
    | g :: gs, stm =>
      exfalso
      simp only [extractTables, List.isEmpty_cons, if_neg] at h
      cases g <;> simp [promoteFirst] at h
  · intro h stm2
    match lat with
    | g :: gs => rfl
  · intro h
    match stm with
    | g :: gs => rfl

/-- Witness for C7: a one-grid lattice result is promoted (header row split
off) whatever the stream strategy would have returned. -/
theorem C7_witness :
    extractTables [[[codes "h"], [codes "1"]]] [[[codes "zz"]]] (codes "2-4") =
      Except.ok ⟨[codes "h"], [[codes "1"]]⟩ := by
  have h := (C7_strategy_order [[[codes "h"], [codes "1"]]] [] (codes "2-4") []).2.2.1
    (by decide) [[[codes "zz"]]]
  rw [h]
  rfl

/-- C9: a 1-based page index is in a statement type's list iff that page's
text matches the type's (case-insensitive) heading pattern; the lists are in
ascending page order; the three types are matched independently, so one page
may appear under several types; an unknown statement type reads as the empty
list, not an error; and a document whose page 5 carries the canonical
income-statement heading yields an Income Statement entry containing 5. -/
theorem C9_page_detection (texts : List (List Nat)) (stype : List Nat) (i : Nat) :
    (i ∈ detectPages texts stype ↔
      ∃ m, patternFor stype = some m ∧ 1 ≤ i ∧ i ≤ texts.length ∧
        m (texts.getD (i - 1) []) = true) ∧
    (detectPages texts stype).Pairwise (· < ·) ∧
    detectPages [[], [], [], [], codes "Consolidated Statements of Operations"]
      (codes "Income Statement") = [5] := by
  refine ⟨?_, ?_, by decide⟩
  · cases hp : patternFor stype with
    | none => simp [detectPages, hp]
    | some m =>
      simp only [detectPages, hp, List.mem_map, List.mem_filter, List.mem_range]
      constructor
      · rintro ⟨k, ⟨hk, hm⟩, rfl⟩
        exact ⟨m, rfl, by omega, by omega, by simpa using hm⟩
      · rintro ⟨m2, hm2, h1, h2, h3⟩
        cases hm2
        exact ⟨i - 1, ⟨by omega, h3⟩, by omega⟩
  · cases hp : patternFor stype with
    | none => simp [detectPages, hp]
    | some m =>
      simp only [detectPages, hp]
      have h1 : (List.range texts.length).Pairwise (· < ·) := List.pairwise_lt_range _
      have h2 := h1.filter (fun k => m (texts.getD k []))
      rw [List.pairwise_map]
      exact h2.imp (fun h => by omega)

/-- Witness for C9 at a concrete two-page document: the balance-sheet heading
on page 1 is listed for Balance Sheet and nothing is listed for Cash Flows. -/
theorem C9_witness :
    1 ∈ detectPages [codes "CONSOLIDATED  BALANCE SHEETS", []] (codes "Balance Sheet") ∧
    (2 ∈ detectPages [codes "CONSOLIDATED  BALANCE SHEETS", []] (codes "Cash Flows") ↔
      ∃ m, patternFor (codes "Cash Flows") = some m ∧ 1 ≤ 2 ∧ 2 ≤ 2 ∧
        m ([codes "CONSOLIDATED  BALANCE SHEETS", []].getD 1 []) = true) := by
  constructor
  · exact (C9_page_detection [codes "CONSOLIDATED  BALANCE SHEETS", []]
      (codes "Balance Sheet") 1).1.mpr ⟨_, rfl, by decide, by decide, by decide⟩
  · exact (C9_page_detection [codes "CONSOLIDATED  BALANCE SHEETS", []] (codes "Cash Flows") 2).1

theorem mem_natCodes (n : Nat) : ∀ d ∈ natCodes n, 48 ≤ d ∧ d ≤ 57 := by
  induction n using Nat.strong_induction_on with
  | _ n ih =>
    rw [natCodes_eq]
    by_cases h : n < 10
    · simp only [if_pos h, List.mem_singleton]
      rintro d rfl
      omega
    · simp only [if_neg h, List.mem_append, List.mem_singleton]
      rintro d (hd | rfl)
      · exact ih (n / 10) (Nat.div_lt_self (by omega) (by omega)) d hd
      · have := Nat.mod_lt n (show 0 < 10 by omega)
        omega

theorem dot_not_mem_natCodes (n : Nat) : 46 ∉ natCodes n := by
  intro h
  have := mem_natCodes n 46 h
  omega

/-- Reading digit codes back as a number, the inverse of `natCodes`. -/
def decodeCodes (l : List Nat) : Nat := l.foldl (fun a d => a * 10 + (d - 48)) 0

theorem decodeCodes_append (l : List Nat) (x : Nat) :
    decodeCodes (l ++ [x]) = decodeCodes l * 10 + (x - 48) := by
  simp [decodeCodes, List.foldl_append]

theorem decodeCodes_natCodes (n : Nat) : decodeCodes (natCodes n) = n := by
  induction n using Nat.strong_induction_on with
  | _ n ih =>
    rw [natCodes_eq]
    by_cases h : n < 10
    · simp only [if_pos h]
      simp [decodeCodes]
    · simp only [if_neg h]
      rw [decodeCodes_append, ih (n / 10) (Nat.div_lt_self (by omega) (by omega))]
      omega

theorem natCodes_inj {m n : Nat} (h : natCodes m = natCodes n) : m = n := by
  have := decodeCodes_natCodes m
  rw [h, decodeCodes_natCodes] at this
  omega

theorem append_dot_inj : ∀ (a b s t : List Nat), 46 ∉ s → 46 ∉ t →
    a ++ 46 :: s = b ++ 46 :: t → a = b ∧ s = t := by
  intro a
  induction a with
  | nil =>
    intro b s t hs ht h
    cases b with
    | nil =>
      simp only [List.nil_append] at h
      cases h
      exact ⟨rfl, rfl⟩
    | cons x bs =>
      simp only [List.nil_append, List.cons_append, List.cons.injEq] at h
      exact absurd (h.2 ▸ List.mem_append_right bs (List.mem_cons_self 46 t)) hs
  | cons x as2 ih =>
    intro b s t hs ht h
    cases b with
    | nil =>
      simp only [List.cons_append, List.nil_append, List.cons.injEq] at h
      exact absurd (h.2.symm ▸ List.mem_append_right as2 (List.mem_cons_self 46 s)) ht
    | cons y bs =>
      simp only [List.cons_append, List.cons.injEq] at h
      obtain ⟨rfl, h2⟩ := h
      obtain ⟨rfl, rfl⟩ := ih bs s t hs ht h2
      exact ⟨rfl, rfl⟩

theorem makeColsUniqueGo_eq (cols pre : List (List Nat)) :
    makeColsUniqueGo cols (fun c => pre.count c) =
    (List.range cols.length).map (fun i =>
      let c := cols.getD i []
      let m := (pre ++ cols.take i).count c
      if m = 0 then c else c ++ 46 :: natCodes (m + 1)) := by
  induction cols generalizing pre with
  | nil => simp [makeColsUniqueGo]
  | cons c cs ih =>
    have hcnt : ∀ x : List Nat, (pre ++ [c]).count x =
        if x = c then pre.count x + 1 else pre.count x := by
      intro x
      by_cases hx : x = c
      · subst hx; simp [List.count_append]
      · simp [List.count_append, List.count_singleton', hx]
    have htail : ∀ m : Nat, m = pre.count c →
        (fun x => if x = c then m + 1 else pre.count x) = (fun x => (pre ++ [c]).count x) := by
      rintro m rfl
      funext x
      rw [hcnt x]
      by_cases hx : x = c <;> simp [hx]
    simp only [makeColsUniqueGo]
    by_cases h : pre.count c = 0
    · rw [if_pos h]
      have h1 : (fun x => if x = c then 1 else pre.count x) =
          (fun x => (pre ++ [c]).count x) := by
        have := htail (pre.count c) rfl
        rw [h] at this
        exact this
      rw [h1, ih]
      simp only [List.length_cons]
      rw [List.range_succ_eq_map, List.map_cons, List.map_map]
      congr 1
      · simp [h]
      · apply List.map_congr_left
        intro i _
        simp only [Function.comp_apply, List.getD_cons_succ, List.take_succ_cons]
        rw [show pre ++ c :: List.take i cs = (pre ++ [c]) ++ List.take i cs by simp]
    · rw [if_neg h]
      rw [htail (pre.count c) rfl, ih]
      simp only [List.length_cons]
      rw [List.range_succ_eq_map, List.map_cons, List.map_map]
      congr 1
      · simp [h]
      · apply List.map_congr_left
        intro i _
        simp only [Function.comp_apply, List.getD_cons_succ, List.take_succ_cons]
        rw [show pre ++ c :: List.take i cs = (pre ++ [c]) ++ List.take i cs by simp]

theorem makeColsUnique_eq_dedupSpec (cols : List (List Nat)) :
    makeColsUnique cols = dedupSpec cols := by
  have h0 : (fun _ : List Nat => (0 : Nat)) = (fun c => ([] : List (List Nat)).count c) := by
    funext x; simp
  unfold makeColsUnique dedupSpec
  rw [h0, makeColsUniqueGo_eq cols []]
  simp

theorem getD_mem {l : List (List Nat)} {i : Nat} (h : i < l.length) : l.getD i [] ∈ l := by
  rw [List.getD_eq_getElem _ _ h]
  exact List.getElem_mem h

theorem count_take_succ {l : List (List Nat)} {i : Nat} (h : i < l.length) :
    (l.take (i + 1)).count (l.getD i []) = (l.take i).count (l.getD i []) + 1 := by
  rw [List.take_succ, List.count_append, List.getElem?_eq_getElem h,
    List.getD_eq_getElem _ _ h]
  simp

theorem count_take_le {l : List (List Nat)} {i j : Nat} (hij : i ≤ j) (c : List Nat) :
    (l.take i).count c ≤ (l.take j).count c :=
  ((List.take_prefix_take_left l hij).sublist).count_le c

/-- No input header name is itself some input header name followed by `.` and
a decimal count that the deduplication could generate (counts never exceed the
list length plus one). -/
def noCollision (cols : List (List Nat)) : Prop :=
  ∀ k, k < cols.length + 1 → 2 ≤ k → ∀ c ∈ cols, ∀ d ∈ cols, c ≠ d ++ 46 :: natCodes k

instance (cols : List (List Nat)) : Decidable (noCollision cols) := by
  unfold noCollision; infer_instance

theorem dedupSpec_nodup (cols : List (List Nat)) (h : noCollision cols) :
    (dedupSpec cols).Nodup := by
  have key : ∀ i j, i < cols.length → j < cols.length → i < j →
      (if (cols.take i).count (cols.getD i []) = 0 then cols.getD i []
        else cols.getD i [] ++ 46 :: natCodes ((cols.take i).count (cols.getD i []) + 1)) ≠
      (if (cols.take j).count (cols.getD j []) = 0 then cols.getD j []
        else cols.getD j [] ++ 46 :: natCodes ((cols.take j).count (cols.getD j []) + 1)) := by
    intro i j hi hj hij heq
    have hci : cols.getD i [] ∈ cols := getD_mem hi
    have hcj : cols.getD j [] ∈ cols := getD_mem hj
    have hmj_ge : cols.getD j [] = cols.getD i [] →
        (cols.take i).count (cols.getD i []) + 1 ≤ (cols.take j).count (cols.getD j []) := by
      intro hcc
      rw [hcc]
      calc (cols.take i).count (cols.getD i []) + 1
          = (cols.take (i + 1)).count (cols.getD i []) := (count_take_succ hi).symm
        _ ≤ (cols.take j).count (cols.getD i []) := count_take_le (by omega) _
    have hmi_le : (cols.take i).count (cols.getD i []) ≤ i := by
      calc (cols.take i).count (cols.getD i []) ≤ (cols.take i).length :=
            List.count_le_length _ _
        _ ≤ i := by simp [List.length_take]
    have hmj_le : (cols.take j).count (cols.getD j []) ≤ j := by
      calc (cols.take j).count (cols.getD j []) ≤ (cols.take j).length :=
            List.count_le_length _ _
        _ ≤ j := by simp [List.length_take]
    by_cases h1 : (cols.take i).count (cols.getD i []) = 0 <;>
      by_cases h2 : (cols.take j).count (cols.getD j []) = 0
    · rw [if_pos h1, if_pos h2] at heq
      have := hmj_ge heq.symm
      omega
    · rw [if_pos h1, if_neg h2] at heq
      exact h ((cols.take j).count (cols.getD j []) + 1) (by omega) (by omega)
        (cols.getD i []) hci (cols.getD j []) hcj heq
    · rw [if_neg h1, if_pos h2] at heq
      exact h ((cols.take i).count (cols.getD i []) + 1) (by omega) (by omega)
        (cols.getD j []) hcj (cols.getD i []) hci heq.symm
    · rw [if_neg h1, if_neg h2] at heq
      obtain ⟨hc, hn⟩ := append_dot_inj _ _ _ _ (dot_not_mem_natCodes _)
        (dot_not_mem_natCodes _) heq
      have := natCodes_inj hn
      have := hmj_ge hc.symm
      omega
  have hp : (List.range cols.length).Pairwise
      (fun i j =>
        (if (cols.take i).count (cols.getD i []) = 0 then cols.getD i []
          else cols.getD i [] ++ 46 :: natCodes ((cols.take i).count (cols.getD i []) + 1)) ≠
        (if (cols.take j).count (cols.getD j []) = 0 then cols.getD j []
          else cols.getD j [] ++ 46 :: natCodes ((cols.take j).count (cols.getD j []) + 1))) :=
    (List.pairwise_lt_range _).imp_of_mem
      (fun {i j} hi hj hij =>
        key i j (List.mem_range.mp hi) (List.mem_range.mp hj) hij)
  exact List.pairwise_map.mpr hp

/-- C8 counterexample: on headers `["a", "a.2", "a"]` the suffix given to the
second `"a"` collides with the existing `"a.2"` header, so the resulting names
are not pairwise distinct as the claim states. -/
theorem C8_counterexample :
    makeColsUnique [codes "a", codes "a.2", codes "a"] =
      [codes "a", codes "a.2", codes "a.2"] ∧
    ¬ (makeColsUnique [codes "a", codes "a.2", codes "a"]).Nodup := by decide

/-- C8 (amended): deduplication leaves the first occurrence of each name
unsuffixed, gives each later repeat the suffix `.k` for its 1-based occurrence
number `k`, keeps the length and the non-repeated names unchanged, and the
output names are pairwise distinct provided no input name equals another input
name extended with a dot and a generatable count (`noCollision`). -/
theorem C8_dedup_suffixes (cols : List (List Nat)) (h : noCollision cols) :
    makeColsUnique cols = dedupSpec cols ∧
    (makeColsUnique cols).length = cols.length ∧
    (∀ i, i < cols.length → (cols.take i).count (cols.getD i []) = 0 →
      (makeColsUnique cols).getD i [] = cols.getD i []) ∧
    (∀ i, i < cols.length → 0 < (cols.take i).count (cols.getD i []) →
      (makeColsUnique cols).getD i [] =
        cols.getD i [] ++ 46 :: natCodes ((cols.take i).count (cols.getD i []) + 1)) ∧
    (makeColsUnique cols).Nodup := by
  have hgetD : ∀ i, i < cols.length → (makeColsUnique cols).getD i [] =
      (if (cols.take i).count (cols.getD i []) = 0 then cols.getD i []
        else cols.getD i [] ++ 46 :: natCodes ((cols.take i).count (cols.getD i []) + 1)) := by
    intro i hi
    rw [makeColsUnique_eq_dedupSpec]
    unfold dedupSpec
    rw [List.getD_eq_getElem _ _ (by simpa using hi), List.getElem_map]
    simp
  refine ⟨makeColsUnique_eq_dedupSpec cols, ?_, ?_, ?_, ?_⟩
  · rw [makeColsUnique_eq_dedupSpec]; simp [dedupSpec]
  · intro i hi hcnt
    rw [hgetD i hi, if_pos hcnt]
  · intro i hi hcnt
    rw [hgetD i hi, if_neg (by omega)]
  · rw [makeColsUnique_eq_dedupSpec]
    exact dedupSpec_nodup cols h

/-- Witness for C8 at concrete collision-free headers. -/
theorem C8_witness : (makeColsUnique [codes "a", codes "b", codes "a"]).Nodup :=
  (C8_dedup_suffixes [codes "a", codes "b", codes "a"] (by decide)).2.2.2.2

theorem mem_insertByLen {x p : List Nat × List Nat} :
    ∀ {l : List (List Nat × List Nat)}, x ∈ insertByLen p l ↔ x = p ∨ x ∈ l := by
  intro l
  induction l with
  | nil => simp [insertByLen]
  | cons q qs ih =>
    simp only [insertByLen]
    by_cases h : p.1.length < q.1.length
    · rw [if_pos h]
      simp only [List.mem_cons, ih]
      tauto
    · rw [if_neg h]
      simp only [List.mem_cons]
      try tauto

theorem mem_sortByLen {x : List Nat × List Nat} :
    ∀ {l : List (List Nat × List Nat)}, x ∈ sortByLen l ↔ x ∈ l := by
  intro l
  induction l with
  | nil => simp [sortByLen]
  | cons q qs ih => simp [sortByLen, mem_insertByLen, ih]

theorem pairwise_insertByLen {p : List Nat × List Nat} {l : List (List Nat × List Nat)}
    (h : l.Pairwise (fun a b => b.1.length ≤ a.1.length)) :
    (insertByLen p l).Pairwise (fun a b => b.1.length ≤ a.1.length) := by
  induction l with
  | nil => simp [insertByLen]
  | cons q qs ih =>
    rw [List.pairwise_cons] at h
    simp only [insertByLen]
    by_cases hpq : p.1.length < q.1.length
    · rw [if_pos hpq]
      rw [List.pairwise_cons]
      refine ⟨?_, ih h.2⟩
      intro x hx
      rcases mem_insertByLen.mp hx with rfl | hx2
      · omega
      · exact h.1 x hx2
    · rw [if_neg hpq]
      rw [List.pairwise_cons]
      refine ⟨?_, List.pairwise_cons.mpr h⟩
      intro x hx
      rcases List.mem_cons.mp hx with rfl | hx2
      · omega
      · have := h.1 x hx2
        omega

theorem sortByLen_pairwise :
    ∀ (l : List (List Nat × List Nat)),
      (sortByLen l).Pairwise (fun a b => b.1.length ≤ a.1.length) := by
  intro l
  induction l with
  | nil => simp [sortByLen]
  | cons q qs ih => exact pairwise_insertByLen ih

theorem find?_max_of_sorted {pr : List Nat × List Nat → Bool} :
    ∀ {l : List (List Nat × List Nat)} {kv : List Nat × List Nat},
      l.Pairwise (fun a b => b.1.length ≤ a.1.length) → l.find? pr = some kv →
      ∀ y ∈ l, pr y = true → y.1.length ≤ kv.1.length := by
  intro l
  induction l with
  | nil => intro kv _ h; cases h
  | cons a as ih =>
    intro kv hp hf y hy hpy
    rw [List.pairwise_cons] at hp
    by_cases ha : pr a
    · rw [List.find?_cons_of_pos _ ha] at hf
      cases hf
      rcases List.mem_cons.mp hy with rfl | hy2
      · omega
      · exact hp.1 y hy2
    · rw [List.find?_cons_of_neg _ ha] at hf
      rcases List.mem_cons.mp hy with rfl | hy2
      · rw [hpy] at ha; exact absurd rfl ha
      · exact ih hp.2 hf y hy2 hpy

/-- C4: the Canonicalizer cleans the label, matches it as a substring against
the statement type's phrase list longest phrases first so that the returned
key always belongs to a matching phrase of maximal length, and passes the
cleaned label through unchanged when no phrase matches; in particular
`canonicalize("Total Revenues", IncomeStatement) = "revenue"` and
`canonicalize("Some Unmapped Line", IncomeStatement) = "some unmapped line"`. -/
theorem C4_canonicalizer (raw stype : List Nat) :
    canonicalName (codes "Total Revenues") (codes "Income Statement") = codes "revenue" ∧
    canonicalName (codes "Some Unmapped Line") (codes "Income Statement") =
      codes "some unmapped line" ∧
    ((∀ kv ∈ mapsFor stype, hasSub kv.1 (cleanText raw) = false) →
      canonicalName raw stype = cleanText raw) ∧
    (∀ kv ∈ mapsFor stype, hasSub kv.1 (cleanText raw) = true →
      ∃ kv2 ∈ mapsFor stype, hasSub kv2.1 (cleanText raw) = true ∧
        canonicalName raw stype = kv2.2 ∧
        ∀ kv3 ∈ mapsFor stype, hasSub kv3.1 (cleanText raw) = true →
          kv3.1.length ≤ kv2.1.length) := by
  refine ⟨by decide, by decide, ?_, ?_⟩
  · intro h
    have hnone : (sortByLen (mapsFor stype)).find? (fun kv => hasSub kv.1 (cleanText raw)) =
        none := by
      rw [List.find?_eq_none]
      intro x hx
      simp [h x (mem_sortByLen.mp hx)]
    simp only [canonicalName, hnone]
  · intro kv hkv hsub
    cases hf : (sortByLen (mapsFor stype)).find? (fun kv => hasSub kv.1 (cleanText raw)) with
    | none =>
      rw [List.find?_eq_none] at hf
      exact absurd hsub (by simpa using hf kv (mem_sortByLen.mpr hkv))
    | some kv2 =>
      refine ⟨kv2, mem_sortByLen.mp (List.mem_of_find?_eq_some hf),
        by simpa using List.find?_some hf, ?_, ?_⟩
      · simp only [canonicalName, hf]
      · intro kv3 hkv3 hsub3
        exact find?_max_of_sorted (sortByLen_pairwise _) hf kv3 (mem_sortByLen.mpr hkv3) hsub3

/-- Witness for C4: a matching label resolves to the key of a longest
matching phrase. -/
theorem C4_witness :
    ∃ kv2 ∈ mapsFor (codes "Income Statement"),
      hasSub kv2.1 (cleanText (codes "Cost of Goods Sold")) = true ∧
      canonicalName (codes "Cost of Goods Sold") (codes "Income Statement") = kv2.2 ∧
      ∀ kv3 ∈ mapsFor (codes "Income Statement"),
        hasSub kv3.1 (cleanText (codes "Cost of Goods Sold")) = true →
        kv3.1.length ≤ kv2.1.length :=
  (C4_canonicalizer (codes "Cost of Goods Sold") (codes "Income Statement")).2.2.2
    (codes "cost of goods sold", codes "cogs") (by decide) (by decide)

theorem toLowerCode_eq_of_not {d : Nat} (h : ¬(65 ≤ d ∧ d ≤ 90)) : toLowerCode d = d := by
  unfold toLowerCode
  rw [if_neg h]

theorem toLowerCode_eq_of {d : Nat} (h : 65 ≤ d ∧ d ≤ 90) : toLowerCode d = d + 32 := by
  unfold toLowerCode
  rw [if_pos h]

theorem toLowerCode_idem (c : Nat) : toLowerCode (toLowerCode c) = toLowerCode c := by
  by_cases h : 65 ≤ c ∧ c ≤ 90
  · rw [toLowerCode_eq_of h, toLowerCode_eq_of_not (by omega)]
  · rw [toLowerCode_eq_of_not h, toLowerCode_eq_of_not h]

theorem isWs_toLowerCode (c : Nat) : isWs (toLowerCode c) = isWs c := by
  by_cases h : 65 ≤ c ∧ c ≤ 90
  · rw [toLowerCode_eq_of h]
    unfold isWs
    rw [decide_eq_decide]
    omega
  · rw [toLowerCode_eq_of_not h]

/-- Text already in whitespace normal form: every whitespace character is a
plain space and no two whitespace characters are adjacent. -/
def wsNormal (l : List Nat) : Prop :=
  (∀ c ∈ l, isWs c = true → c = 32) ∧
    l.Chain' (fun a b => isWs a = false ∨ isWs b = false)

theorem collapseWs_head {c2 : Nat} {rest2 : List Nat} (h : isWs c2 = false) :
    (collapseWs (c2 :: rest2)).head? = some c2 := by
  cases rest2 with
  | nil => simp [collapseWs, h]
  | cons c3 rest3 => simp [collapseWs, h]

theorem collapseWs_wsNormal : ∀ l : List Nat, wsNormal (collapseWs l) := by
  intro l
  induction l with
  | nil => exact ⟨by simp [collapseWs], by simp [collapseWs]⟩
  | cons c1 rest ih =>
    cases rest with
    | nil =>
      constructor
      · intro c hc hw
        simp only [collapseWs, List.mem_singleton] at hc
        subst hc
        by_cases h1 : isWs c1 = true
        · rw [if_pos h1]
        · rw [if_neg h1] at hw
          exact absurd hw h1
      · simp [collapseWs]
    | cons c2 rest2 =>
      by_cases hb : (isWs c1 && isWs c2) = true
      · simpa [collapseWs, hb] using ih
      · have hstep : collapseWs (c1 :: c2 :: rest2) =
            (if isWs c1 then 32 else c1) :: collapseWs (c2 :: rest2) := by
          simp only [collapseWs, hb, Bool.false_eq_true, if_false]
        constructor
        · intro c hc hw
          rw [hstep] at hc
          rcases List.mem_cons.mp hc with rfl | hc2
          · by_cases h1 : isWs c1 = true
            · rw [if_pos h1]
            · rw [if_neg h1] at hw
              exact absurd hw h1
          · exact ih.1 c hc2 hw
        · rw [hstep]
          rw [List.chain'_cons']
          refine ⟨?_, ih.2⟩
          intro y hy
          by_cases h1 : isWs c1 = true
          · have h2 : isWs c2 = false := by
              cases hisWs2 : isWs c2
              · rfl
              · exfalso; apply hb; rw [h1, hisWs2]; rfl
            rw [collapseWs_head h2] at hy
            cases hy
            exact Or.inr h2
          · left
            rw [if_neg h1]
            cases hws : isWs c1
            · rfl
            · exact absurd hws h1

theorem collapseWs_of_wsNormal : ∀ l : List Nat, wsNormal l → collapseWs l = l := by
  intro l
  induction l with
  | nil => intro _; rfl
  | cons c1 rest ih =>
    intro h
    cases rest with
    | nil =>
      simp only [collapseWs]
      by_cases h1 : isWs c1 = true
      · rw [if_pos h1, h.1 c1 (by simp) h1]
      · rw [if_neg h1]
    | cons c2 rest2 =>
      have hadj : isWs c1 = false ∨ isWs c2 = false := by
        have h2 := h.2
        rw [List.chain'_cons] at h2
        exact h2.1
      have hb : (isWs c1 && isWs c2) = false := by
        rcases hadj with h1 | h2
        · simp [h1]
        · simp [h2]
      have htail : wsNormal (c2 :: rest2) := by
        refine ⟨fun c hc hw => h.1 c (List.mem_cons_of_mem c1 hc) hw, ?_⟩
        have h2 := h.2
        rw [List.chain'_cons] at h2
        exact h2.2
      simp only [collapseWs, hb, Bool.false_eq_true, if_false]
      rw [ih htail]
      by_cases h1 : isWs c1 = true
      · rw [if_pos h1, h.1 c1 (by simp) h1]
      · rw [if_neg h1]

theorem wsNormal_suffix {l t : List Nat} (h : wsNormal l) (hs : t <:+ l) : wsNormal t := by
  obtain ⟨s, rfl⟩ := hs
  refine ⟨fun c hc hw => h.1 c (List.mem_append_right s hc) hw, ?_⟩
  exact (List.chain'_append.mp h.2).2.1

theorem wsNormal_reverse {l : List Nat} (h : wsNormal l) : wsNormal l.reverse := by
  refine ⟨fun c hc hw => h.1 c (List.mem_reverse.mp hc) hw, ?_⟩
  rw [List.chain'_reverse]
  exact h.2.imp (fun a b hab => hab.symm)

theorem wsNormal_dropWhile {l : List Nat} (p : Nat → Bool) (h : wsNormal l) :
    wsNormal (l.dropWhile p) :=
  wsNormal_suffix h ⟨l.takeWhile p, List.takeWhile_append_dropWhile p l⟩

theorem wsNormal_trimWs {l : List Nat} (h : wsNormal l) : wsNormal (trimWs l) := by
  unfold trimWs
  exact wsNormal_reverse (wsNormal_dropWhile _ (wsNormal_reverse (wsNormal_dropWhile _ h)))

theorem wsNormal_map_lower {l : List Nat} (h : wsNormal l) :
    wsNormal (l.map toLowerCode) := by
  constructor
  · intro c hc hw
    obtain ⟨d, hd, rfl⟩ := List.mem_map.mp hc
    rw [isWs_toLowerCode] at hw
    rw [h.1 d hd hw]
    decide
  · rw [List.chain'_map]
    exact h.2.imp (fun a b hab => by rwa [isWs_toLowerCode, isWs_toLowerCode])

theorem head?_dropWhile {p : Nat → Bool} :
    ∀ {l : List Nat} {x : Nat}, (l.dropWhile p).head? = some x → p x = false := by
  intro l
  induction l with
  | nil => intro x h; cases h
  | cons c cs ih =>
    intro x h
    rw [List.dropWhile_cons] at h
    by_cases hc : p c
    · rw [if_pos hc] at h
      exact ih h
    · rw [if_neg hc] at h
      cases h
      cases hx : p c
      · rfl
      · exact absurd hx hc

theorem dropWhile_eq_self_of_head {p : Nat → Bool} {l : List Nat}
    (h : ∀ x, l.head? = some x → p x = false) : l.dropWhile p = l := by
  cases l with
  | nil => rfl
  | cons c cs =>
    rw [List.dropWhile_cons, if_neg]
    rw [h c rfl]
    simp

theorem getLast?_of_suffix {s t : List Nat} (h : t <:+ s) (hne : t ≠ []) :
    t.getLast? = s.getLast? := by
  obtain ⟨u, rfl⟩ := h
  rw [List.getLast?_append, Option.or_of_isSome (List.getLast?_isSome.mpr hne)]

theorem trimWs_idem (l : List Nat) : trimWs (trimWs l) = trimWs l := by
  have htrim : trimWs l = ((l.dropWhile isWs).reverse.dropWhile isWs).reverse := rfl
  cases hbe : (l.dropWhile isWs).reverse.dropWhile isWs with
  | nil => rw [htrim, hbe]; rfl
  | cons y b2 =>
    have hy : isWs y = false := head?_dropWhile (l := (l.dropWhile isWs).reverse) (x := y)
      (by rw [hbe]; rfl)
    have hanil : l.dropWhile isWs ≠ [] := by
      intro hae
      rw [hae] at hbe
      simp at hbe
    obtain ⟨z, a2, haz⟩ : ∃ z a2, l.dropWhile isWs = z :: a2 := by
      cases hav : l.dropWhile isWs with
      | nil => exact absurd hav hanil
      | cons z a2 => exact ⟨z, a2, rfl⟩
    have hz : isWs z = false := head?_dropWhile (l := l) (x := z) (by rw [haz]; rfl)
    have hlastz : ((l.dropWhile isWs).reverse.dropWhile isWs).getLast? = some z := by
      rw [getLast?_of_suffix
        ⟨(l.dropWhile isWs).reverse.takeWhile isWs, List.takeWhile_append_dropWhile _ _⟩
        (by rw [hbe]; exact List.cons_ne_nil y b2)]
      rw [List.getLast?_reverse, haz]
      rfl
    have hstep1 : (trimWs l).dropWhile isWs = trimWs l := by
      apply dropWhile_eq_self_of_head
      intro x hx
      rw [htrim, List.head?_reverse, hlastz] at hx
      cases hx
      exact hz
    have hstep2 : (trimWs l).reverse.dropWhile isWs = (trimWs l).reverse := by
      apply dropWhile_eq_self_of_head
      intro x hx
      rw [htrim, List.reverse_reverse, hbe] at hx
      cases hx
      exact hy
    show (((trimWs l).dropWhile isWs).reverse.dropWhile isWs).reverse = trimWs l
    rw [hstep1, hstep2, List.reverse_reverse]

theorem trimWs_map_lower (l : List Nat) :
    trimWs (l.map toLowerCode) = (trimWs l).map toLowerCode := by
  have hcomp : (isWs ∘ toLowerCode) = isWs := by
    funext c
    exact isWs_toLowerCode c
  unfold trimWs
  rw [List.dropWhile_map, hcomp, ← List.map_reverse, List.dropWhile_map, hcomp,
    ← List.map_reverse]

theorem cleanText_idem (s : List Nat) : cleanText (cleanText s) = cleanText s := by
  have hu : cleanText s = trimWs ((collapseWs s).map toLowerCode) := by
    unfold cleanText
    rw [trimWs_map_lower]
  have hnorm : wsNormal (cleanText s) :=
    wsNormal_map_lower (wsNormal_trimWs (collapseWs_wsNormal s))
  have h1 : collapseWs (cleanText s) = cleanText s := collapseWs_of_wsNormal _ hnorm
  have h2 : trimWs (cleanText s) = cleanText s := by
    conv_lhs => rw [hu]
    rw [trimWs_idem, ← hu]
  show (trimWs (collapseWs (cleanText s))).map toLowerCode = cleanText s
  rw [h1, h2]
  conv_lhs => rw [show cleanText s = (trimWs (collapseWs s)).map toLowerCode from rfl]
  rw [List.map_map]
  conv_rhs => rw [show cleanText s = (trimWs (collapseWs s)).map toLowerCode from rfl]
  congr 1
  funext c
  exact toLowerCode_idem c

theorem mapsFor_fixed (stype : List Nat) (kv : List Nat × List Nat) (h : kv ∈ mapsFor stype) :
    canonicalName kv.2 stype = kv.2 := by
  by_cases h1 : stype = codes "Income Statement"
  · subst h1
    rw [show mapsFor (codes "Income Statement") = INCOME_MAP from rfl] at h
    exact (by decide :
      ∀ kv ∈ INCOME_MAP, canonicalName kv.2 (codes "Income Statement") = kv.2) kv h
  · by_cases h2 : stype = codes "Balance Sheet"
    · subst h2
      rw [show mapsFor (codes "Balance Sheet") = BALANCE_MAP from rfl] at h
      exact (by decide :
        ∀ kv ∈ BALANCE_MAP, canonicalName kv.2 (codes "Balance Sheet") = kv.2) kv h
    · by_cases h3 : stype = codes "Cash Flows"
      · subst h3
        rw [show mapsFor (codes "Cash Flows") = CASHFLOWS_MAP from rfl] at h
        exact (by decide :
          ∀ kv ∈ CASHFLOWS_MAP, canonicalName kv.2 (codes "Cash Flows") = kv.2) kv h
      · rw [show mapsFor stype = [] by unfold mapsFor; rw [if_neg h1, if_neg h2, if_neg h3]] at h
        cases h

/-- C10: canonicalization is idempotent — a second pass maps every canonical
key and every cleaned passthrough label to itself, for any raw label and any
statement type (known or unknown). -/
theorem C10_canonicalize_idempotent (raw stype : List Nat) :
    canonicalName (canonicalName raw stype) stype = canonicalName raw stype := by
  cases hf : (sortByLen (mapsFor stype)).find? (fun kv => hasSub kv.1 (cleanText raw)) with
  | some kv =>
    have hres : canonicalName raw stype = kv.2 := by simp only [canonicalName, hf]
    rw [hres]
    exact mapsFor_fixed stype kv (mem_sortByLen.mp (List.mem_of_find?_eq_some hf))
  | none =>
    have hres : canonicalName raw stype = cleanText raw := by simp only [canonicalName, hf]
    rw [hres]
    have hclean : cleanText (cleanText raw) = cleanText raw := cleanText_idem raw
    simp only [canonicalName, hclean, hf]

theorem keyLE_refl (a : ColScore) : keyLE a a := Or.inr ⟨rfl, Or.inr ⟨rfl, Nat.le_refl _⟩⟩

theorem keyLE_total (a b : ColScore) : keyLE a b ∨ keyLE b a := by
  rcases lt_trichotomy a.ratio b.ratio with h | h | h
  · exact Or.inl (Or.inl h)
  · cases ha : a.yflag <;> cases hb : b.yflag
    · rcases Nat.le_total a.idx b.idx with hi | hi
      · exact Or.inl (Or.inr ⟨h, Or.inr ⟨by rw [ha, hb], hi⟩⟩)
      · exact Or.inr (Or.inr ⟨h.symm, Or.inr ⟨by rw [ha, hb], hi⟩⟩)
    · exact Or.inl (Or.inr ⟨h, Or.inl ⟨ha, hb⟩⟩)
    · exact Or.inr (Or.inr ⟨h.symm, Or.inl ⟨hb, ha⟩⟩)
    · rcases Nat.le_total a.idx b.idx with hi | hi
      · exact Or.inl (Or.inr ⟨h, Or.inr ⟨by rw [ha, hb], hi⟩⟩)
      · exact Or.inr (Or.inr ⟨h.symm, Or.inr ⟨by rw [ha, hb], hi⟩⟩)
  · exact Or.inr (Or.inl h)

theorem keyLE_trans {a b c : ColScore} (h1 : keyLE a b) (h2 : keyLE b c) : keyLE a c := by
  rcases h1 with h1 | ⟨he1, h1⟩
  · rcases h2 with h2 | ⟨he2, h2⟩
    · exact Or.inl (h1.trans h2)
    · exact Or.inl (lt_of_lt_of_le h1 (le_of_eq he2))
  · rcases h2 with h2 | ⟨he2, h2⟩
    · exact Or.inl (lt_of_le_of_lt (le_of_eq he1) h2)
    · refine Or.inr ⟨he1.trans he2, ?_⟩
      rcases h1 with ⟨ha, hb⟩ | ⟨hab, hi⟩
      · rcases h2 with ⟨hb2, hc⟩ | ⟨hbc, hi2⟩
        · rw [hb] at hb2; cases hb2
        · exact Or.inl ⟨ha, by rw [← hbc, hb]⟩
      · rcases h2 with ⟨hb2, hc⟩ | ⟨hbc, hi2⟩
        · exact Or.inl ⟨by rw [hab, hb2], hc⟩
        · exact Or.inr ⟨hab.trans hbc, hi.trans hi2⟩

theorem mem_insertScore {x y : ColScore} :
    ∀ {l : List ColScore}, x ∈ insertScore y l ↔ x = y ∨ x ∈ l := by
  intro l
  induction l with
  | nil => simp [insertScore]
  | cons q qs ih =>
    simp only [insertScore]
    by_cases h : keyLE y q
    · rw [if_pos h]
      simp only [List.mem_cons]
      try tauto
    · rw [if_neg h]
      simp only [List.mem_cons, ih]
      try tauto

theorem insertScore_length (y : ColScore) :
    ∀ l : List ColScore, (insertScore y l).length = l.length + 1 := by
  intro l
  induction l with
  | nil => rfl
  | cons q qs ih =>
    simp only [insertScore]
    by_cases h : keyLE y q
    · rw [if_pos h]; rfl
    · rw [if_neg h]
      simp [ih]

theorem sortScores_length : ∀ l : List ColScore, (sortScores l).length = l.length := by
  intro l
  induction l with
  | nil => rfl
  | cons q qs ih =>
    simp only [sortScores]
    rw [insertScore_length, ih]
    rfl

theorem sortScores_head_min :
    ∀ (l : List ColScore) (h : ColScore) (tl : List ColScore),
      sortScores l = h :: tl → h ∈ l ∧ ∀ x ∈ l, keyLE h x := by
  intro l
  induction l with
  | nil => intro h tl hs; cases hs
  | cons a as ih =>
    intro h tl hs
    simp only [sortScores] at hs
    cases hsa : sortScores as with
    | nil =>
      have hase : as = [] := by
        have := sortScores_length as
        rw [hsa] at this
        exact List.length_eq_zero.mp this.symm
      rw [hsa] at hs
      simp only [insertScore] at hs
      injection hs with hh ht
      subst hh
      subst hase
      refine ⟨List.mem_singleton_self a, ?_⟩
      intro x hx
      rw [List.mem_singleton] at hx
      subst hx
      exact keyLE_refl x
    | cons b bs =>
      rw [hsa] at hs
      obtain ⟨hbmem, hbmin⟩ := ih b bs hsa
      simp only [insertScore] at hs
      by_cases hab : keyLE a b
      · rw [if_pos hab] at hs
        injection hs with hh ht
        subst hh
        refine ⟨List.mem_cons_self a as, ?_⟩
        intro x hx
        rcases List.mem_cons.mp hx with rfl | hx2
        · exact keyLE_refl x
        · exact keyLE_trans hab (hbmin x hx2)
      · rw [if_neg hab] at hs
        injection hs with hh ht
        subst hh
        have hba : keyLE b a := (keyLE_total a b).resolve_left hab
        refine ⟨List.mem_cons_of_mem a hbmem, ?_⟩
        intro x hx
        rcases List.mem_cons.mp hx with rfl | hx2
        · exact hba
        · exact hbmin x hx2

theorem scores_mem_iff {t : RawTable} {x : ColScore} :
    x ∈ scores t ↔ ∃ i, i < t.headers.length ∧
      x = ⟨i, yearRe (t.headers.getD i []), mostlyNumeric (colCells t i)⟩ := by
  unfold scores
  simp only [List.mem_map, List.mem_range]
  constructor
  · rintro ⟨i, hi, rfl⟩
    exact ⟨i, hi, rfl⟩
  · rintro ⟨i, hi, rfl⟩
    exact ⟨i, hi, rfl⟩

/-- C1 counterexample: on the table with headers `A, B` and rows
`["", "abc"]`, `["5", "7"]` the spec's numeric_ratio (over non-empty cells)
makes column 1 the unique strict minimum (1/2 against 1 for column 0), yet
the classifier picks column 0: `_mostly_numeric` keeps empty-string cells in
its denominator, so both columns tie at 1/2 and the index tie-break fires. -/
theorem C1_counterexample :
    (pickLabelAndValues
      ⟨[codes "A", codes "B"], [[[], codes "abc"], [codes "5", codes "7"]]⟩).1 = some 0 ∧
    specLabelIdx
      ⟨[codes "A", codes "B"], [[[], codes "abc"], [codes "5", codes "7"]]⟩ = some 1 ∧
    specNumericRatio
        (colCells ⟨[codes "A", codes "B"], [[[], codes "abc"], [codes "5", codes "7"]]⟩ 1) <
      specNumericRatio
        (colCells ⟨[codes "A", codes "B"], [[[], codes "abc"], [codes "5", codes "7"]]⟩ 0) ∧
    mostlyNumeric
        (colCells ⟨[codes "A", codes "B"], [[[], codes "abc"], [codes "5", codes "7"]]⟩ 0) =
      mostlyNumeric
        (colCells ⟨[codes "A", codes "B"], [[[], codes "abc"], [codes "5", codes "7"]]⟩ 1) := by
  refine ⟨by decide, by decide, by decide, by decide⟩

/-- C1 (amended): the label column is the unique lexicographic minimum of the
key `(numeric_ratio, year_flag, column index)` where numeric_ratio is
`_mostly_numeric`'s fraction over all (non-null) cells — empty strings
included in the denominator — with ties broken by `year_flag = false` first
and then by the lowest index.  The `Nodup` hypothesis marks the domain on
which positional column lookup agrees with the source's name-based lookup. -/
theorem C1_label_argmin (t : RawTable) (h1 : t.headers ≠ []) (h2 : t.headers.Nodup) :
    ∃ i, (pickLabelAndValues t).1 = some i ∧ i < t.headers.length ∧
      ∀ j, j < t.headers.length → j ≠ i →
        (mostlyNumeric (colCells t i) < mostlyNumeric (colCells t j) ∨
          (mostlyNumeric (colCells t i) = mostlyNumeric (colCells t j) ∧
            ((yearRe (t.headers.getD i []) = false ∧ yearRe (t.headers.getD j []) = true) ∨
              (yearRe (t.headers.getD i []) = yearRe (t.headers.getD j []) ∧ i < j)))) := by
  have hn : ¬ t.headers.length = 0 := by
    simpa using h1
  have hsne : sortScores (scores t) ≠ [] := by
    intro he
    have := sortScores_length (scores t)
    rw [he] at this
    unfold scores at this
    simp at this
    exact hn (by simp [this])
  obtain ⟨h, tl, hs⟩ : ∃ h tl, sortScores (scores t) = h :: tl := by
    cases hc : sortScores (scores t) with
    | nil => exact absurd hc hsne
    | cons h tl => exact ⟨h, tl, rfl⟩
  obtain ⟨hmem, hmin⟩ := sortScores_head_min (scores t) h tl hs
  obtain ⟨i, hi, hhi⟩ := scores_mem_iff.mp hmem
  have hpick : (pickLabelAndValues t).1 = some h.idx := by
    simp only [pickLabelAndValues, if_neg hn, hs, List.headD_cons]
  refine ⟨i, ?_, hi, ?_⟩
  · rw [hpick, hhi]
  · intro j hj hji
    have hxj : (⟨j, yearRe (t.headers.getD j []), mostlyNumeric (colCells t j)⟩ : ColScore) ∈
        scores t := scores_mem_iff.mpr ⟨j, hj, rfl⟩
    have hle := hmin _ hxj
    rw [hhi] at hle
    rcases hle with hlt | ⟨heq, hrest⟩
    · exact Or.inl hlt
    · refine Or.inr ⟨heq, ?_⟩
      rcases hrest with ⟨hya, hyb⟩ | ⟨hyy, hij⟩
      · exact Or.inl ⟨hya, hyb⟩
      · have hij2 : i ≤ j := hij
        exact Or.inr ⟨hyy, by omega⟩

/-- Witness for C1 (amended) at a concrete two-column table. -/
theorem C1_witness :
    ∃ i, (pickLabelAndValues
        ⟨[codes "Item", codes "2023"],
          [[codes "Revenue", codes "10"], [codes "COGS", codes "4"]]⟩).1 = some i ∧
      i < 2 ∧
      ∀ j, j < 2 → j ≠ i →
        (mostlyNumeric (colCells ⟨[codes "Item", codes "2023"],
            [[codes "Revenue", codes "10"], [codes "COGS", codes "4"]]⟩ i) <
          mostlyNumeric (colCells ⟨[codes "Item", codes "2023"],
            [[codes "Revenue", codes "10"], [codes "COGS", codes "4"]]⟩ j) ∨
          (mostlyNumeric (colCells ⟨[codes "Item", codes "2023"],
              [[codes "Revenue", codes "10"], [codes "COGS", codes "4"]]⟩ i) =
            mostlyNumeric (colCells ⟨[codes "Item", codes "2023"],
              [[codes "Revenue", codes "10"], [codes "COGS", codes "4"]]⟩ j) ∧
            ((yearRe ((⟨[codes "Item", codes "2023"],
                [[codes "Revenue", codes "10"], [codes "COGS", codes "4"]]⟩ :
                  RawTable).headers.getD i []) = false ∧
              yearRe ((⟨[codes "Item", codes "2023"],
                [[codes "Revenue", codes "10"], [codes "COGS", codes "4"]]⟩ :
                  RawTable).headers.getD j []) = true) ∨
              (yearRe ((⟨[codes "Item", codes "2023"],
                [[codes "Revenue", codes "10"], [codes "COGS", codes "4"]]⟩ :
                  RawTable).headers.getD i []) =
                yearRe ((⟨[codes "Item", codes "2023"],
                  [[codes "Revenue", codes "10"], [codes "COGS", codes "4"]]⟩ :
                    RawTable).headers.getD j []) ∧ i < j)))) :=
  C1_label_argmin
    ⟨[codes "Item", codes "2023"], [[codes "Revenue", codes "10"], [codes "COGS", codes "4"]]⟩
    (by decide) (by decide)

theorem lastN_length_le (n : Nat) (l : List α) : (lastN n l).length ≤ n := by
  unfold lastN
  rw [List.length_drop]
  omega

theorem lastN_of_le {n : Nat} {l : List α} (h : l.length ≤ n) : lastN n l = l := by
  unfold lastN
  rw [Nat.sub_eq_zero_of_le h]
  exact List.drop_zero l

theorem lastN_sublist (n : Nat) (l : List α) : List.Sublist (lastN n l) l := List.drop_sublist _ _

theorem lastN_ne_nil {n : Nat} (hn : 1 ≤ n) {l : List α} (h : l ≠ []) : lastN n l ≠ [] := by
  intro he
  apply h
  have hlen : (lastN n l).length = 0 := by rw [he]; rfl
  unfold lastN at hlen
  rw [List.length_drop] at hlen
  rw [← List.length_eq_zero]
  omega

/-- The qualifying value-column index set as the source computes it:
non-label columns whose header carries a year or whose all-cells numeric
ratio (`_mostly_numeric`, empty strings in the denominator) is at least 1/2,
in original order. -/
def qualIdxs (t : RawTable) (lab : Nat) : List Nat :=
  (List.range t.headers.length).filter
    (fun j => decide (j ≠ lab) &&
      (yearRe (t.headers.getD j []) || decide ((1 : ℚ)/2 ≤ mostlyNumeric (colCells t j))))

/-- The non-label column indices in original order (the fallback pool). -/
def nonLabelIdxs (t : RawTable) (lab : Nat) : List Nat :=
  (List.range t.headers.length).filter (fun j => decide (j ≠ lab))

theorem name_ne_iff {t : RawTable} (hnd : t.headers.Nodup) {j ℓ : Nat}
    (hj : j < t.headers.length) (hl : ℓ < t.headers.length) :
    (t.headers.getD j [] ≠ t.headers.getD ℓ []) ↔ j ≠ ℓ := by
  rw [List.getD_eq_getElem _ _ hj, List.getD_eq_getElem _ _ hl]
  exact not_congr (hnd.getElem_inj_iff)

theorem pick_label_lt {t : RawTable} {lab : Nat}
    (h : (pickLabelAndValues t).1 = some lab) : lab < t.headers.length := by
  by_cases hn : t.headers.length = 0
  · exfalso
    simp only [pickLabelAndValues, if_pos hn] at h
    cases h
  · obtain ⟨hd, tl, hs⟩ : ∃ hd tl, sortScores (scores t) = hd :: tl := by
      cases hc : sortScores (scores t) with
      | nil =>
        exfalso
        have := sortScores_length (scores t)
        rw [hc] at this
        unfold scores at this
        simp at this
        exact hn (by simp [this])
      | cons hd tl => exact ⟨hd, tl, rfl⟩
    obtain ⟨hmem, _⟩ := sortScores_head_min (scores t) hd tl hs
    obtain ⟨i, hi, hhi⟩ := scores_mem_iff.mp hmem
    simp only [pickLabelAndValues, if_neg hn, hs, List.headD_cons, Option.some.injEq] at h
    rw [← h, hhi]
    exact hi

theorem pick_snd_eq (t : RawTable) (lab : Nat) (hn : ¬ t.headers.length = 0)
    (hlab : (pickLabelAndValues t).1 = some lab) :
    (pickLabelAndValues t).2 =
      lastN 3 (if ((scores t).filter (fun s =>
          decide (t.headers.getD s.idx [] ≠ t.headers.getD lab []) &&
            (s.yflag || decide ((1 : ℚ)/2 ≤ s.ratio)))).map ColScore.idx = []
        then lastN 3 ((List.range t.headers.length).filter
          (fun i => decide (t.headers.getD i [] ≠ t.headers.getD lab [])))
        else ((scores t).filter (fun s =>
          decide (t.headers.getD s.idx [] ≠ t.headers.getD lab []) &&
            (s.yflag || decide ((1 : ℚ)/2 ≤ s.ratio)))).map ColScore.idx) := by
  simp only [pickLabelAndValues, if_neg hn, Option.some.injEq] at hlab ⊢
  rw [hlab]

theorem filter_scores_eq (t : RawTable) (lab : Nat) (hnd : t.headers.Nodup)
    (hl : lab < t.headers.length) :
    ((scores t).filter (fun s =>
        decide (t.headers.getD s.idx [] ≠ t.headers.getD lab []) &&
          (s.yflag || decide ((1 : ℚ)/2 ≤ s.ratio)))).map ColScore.idx = qualIdxs t lab := by
  unfold scores qualIdxs
  rw [List.filter_map, List.map_map]
  rw [show (ColScore.idx ∘ fun i =>
      (⟨i, yearRe (t.headers.getD i []), mostlyNumeric (colCells t i)⟩ : ColScore)) =
    (fun i : Nat => i) from rfl]
  rw [List.map_id']
  apply List.filter_congr
  intro j hj
  rw [List.mem_range] at hj
  simp only [Function.comp_apply]
  congr 1
  rw [decide_eq_decide]
  exact name_ne_iff hnd hj hl

theorem filter_fallback_eq (t : RawTable) (lab : Nat) (hnd : t.headers.Nodup)
    (hl : lab < t.headers.length) :
    (List.range t.headers.length).filter
      (fun i => decide (t.headers.getD i [] ≠ t.headers.getD lab [])) = nonLabelIdxs t lab := by
  unfold nonLabelIdxs
  apply List.filter_congr
  intro j hj
  rw [List.mem_range] at hj
  rw [decide_eq_decide]
  exact name_ne_iff hnd hj hl

/-- C2 counterexample: on headers `Item, A, B, C, D` where column A is
`["", "", "5"]` and column D is fully numeric, the spec's numeric_ratio (over
non-empty cells) gives A the ratio 1 so the claim requires the value columns
`[A, D]` = `[1, 4]`, yet `_mostly_numeric` keeps the empty strings in the
denominator, rates A at 1/3 < 1/2, and the classifier selects only `[4]`.
The label column is 0 under both ratio readings. -/
theorem C2_counterexample :
    pickLabelAndValues ⟨[codes "Item", codes "A", codes "B", codes "C", codes "D"],
      [[codes "Revenue", codes "", codes "x", codes "x", codes "1"],
       [codes "Other", codes "", codes "y", codes "y", codes "2"],
       [codes "Note", codes "5", codes "z", codes "z", codes "3"]]⟩ = (some 0, [4]) ∧
    specLabelIdx ⟨[codes "Item", codes "A", codes "B", codes "C", codes "D"],
      [[codes "Revenue", codes "", codes "x", codes "x", codes "1"],
       [codes "Other", codes "", codes "y", codes "y", codes "2"],
       [codes "Note", codes "5", codes "z", codes "z", codes "3"]]⟩ = some 0 ∧
    specQualIdxs ⟨[codes "Item", codes "A", codes "B", codes "C", codes "D"],
      [[codes "Revenue", codes "", codes "x", codes "x", codes "1"],
       [codes "Other", codes "", codes "y", codes "y", codes "2"],
       [codes "Note", codes "5", codes "z", codes "z", codes "3"]]⟩ 0 = [1, 4] ∧
    (specQualIdxs ⟨[codes "Item", codes "A", codes "B", codes "C", codes "D"],
      [[codes "Revenue", codes "", codes "x", codes "x", codes "1"],
       [codes "Other", codes "", codes "y", codes "y", codes "2"],
       [codes "Note", codes "5", codes "z", codes "z", codes "3"]]⟩ 0).length ≤ 3 ∧
    (pickLabelAndValues ⟨[codes "Item", codes "A", codes "B", codes "C", codes "D"],
      [[codes "Revenue", codes "", codes "x", codes "x", codes "1"],
       [codes "Other", codes "", codes "y", codes "y", codes "2"],
       [codes "Note", codes "5", codes "z", codes "z", codes "3"]]⟩).2 ≠
      specQualIdxs ⟨[codes "Item", codes "A", codes "B", codes "C", codes "D"],
        [[codes "Revenue", codes "", codes "x", codes "x", codes "1"],
         [codes "Other", codes "", codes "y", codes "y", codes "2"],
         [codes "Note", codes "5", codes "z", codes "z", codes "3"]]⟩ 0 ∧
    mostlyNumeric (colCells ⟨[codes "Item", codes "A", codes "B", codes "C", codes "D"],
      [[codes "Revenue", codes "", codes "x", codes "x", codes "1"],
       [codes "Other", codes "", codes "y", codes "y", codes "2"],
       [codes "Note", codes "5", codes "z", codes "z", codes "3"]]⟩ 1) < 1/2 ∧
    (1 : ℚ)/2 ≤ specNumericRatio (colCells ⟨[codes "Item", codes "A", codes "B", codes "C", codes "D"],
      [[codes "Revenue", codes "", codes "x", codes "x", codes "1"],
       [codes "Other", codes "", codes "y", codes "y", codes "2"],
       [codes "Note", codes "5", codes "z", codes "z", codes "3"]]⟩ 1) := by
  refine ⟨by decide, by decide, by decide, by decide, by decide, by decide, by decide⟩

/-- C2 (amended): the value columns are the last three (rightmost) of the
qualifying set — the non-label columns with `year_flag` or an all-cells
numeric ratio (`_mostly_numeric`, empty strings included in the denominator)
of at least 1/2, in original left-to-right order — all of the qualifying set
when it has at most three members, and the rightmost three non-label columns
when it is empty; the result never has more than three columns and is in
ascending column order. -/
theorem C2_value_selection (t : RawTable) (lab : Nat) (hnd : t.headers.Nodup)
    (hpick : (pickLabelAndValues t).1 = some lab) :
    (pickLabelAndValues t).2 =
      (if qualIdxs t lab = [] then lastN 3 (nonLabelIdxs t lab)
        else lastN 3 (qualIdxs t lab)) ∧
    (pickLabelAndValues t).2.length ≤ 3 ∧
    (qualIdxs t lab ≠ [] → (qualIdxs t lab).length ≤ 3 →
      (pickLabelAndValues t).2 = qualIdxs t lab) ∧
    (pickLabelAndValues t).2.Pairwise (· < ·) := by
  have hl : lab < t.headers.length := pick_label_lt hpick
  have hn : ¬ t.headers.length = 0 := by omega
  have hmain : (pickLabelAndValues t).2 =
      (if qualIdxs t lab = [] then lastN 3 (nonLabelIdxs t lab)
        else lastN 3 (qualIdxs t lab)) := by
    rw [pick_snd_eq t lab hn hpick, filter_scores_eq t lab hnd hl,
      filter_fallback_eq t lab hnd hl]
    by_cases hq : qualIdxs t lab = []
    · rw [if_pos hq, if_pos hq]
      exact lastN_of_le (lastN_length_le 3 _)
    · rw [if_neg hq, if_neg hq]
  refine ⟨hmain, ?_, ?_, ?_⟩
  · rw [hmain]
    by_cases hq : qualIdxs t lab = []
    · rw [if_pos hq]; exact lastN_length_le 3 _
    · rw [if_neg hq]; exact lastN_length_le 3 _
  · intro hq hq3
    rw [hmain, if_neg hq]
    exact lastN_of_le hq3
  · rw [hmain]
    have hQ : (qualIdxs t lab).Pairwise (· < ·) :=
      (List.pairwise_lt_range _).filter _
    have hNL : (nonLabelIdxs t lab).Pairwise (· < ·) :=
      (List.pairwise_lt_range _).filter _
    by_cases hq : qualIdxs t lab = []
    · rw [if_pos hq]
      exact List.Pairwise.sublist (lastN_sublist 3 _) hNL
    · rw [if_neg hq]
      exact List.Pairwise.sublist (lastN_sublist 3 _) hQ

/-- Witness for C2 at a concrete three-column table: both year columns
qualify and are kept in order. -/
theorem C2_witness :
    (pickLabelAndValues ⟨[codes "Item", codes "2023", codes "2022"],
      [[codes "Revenue", codes "10", codes "9"], [codes "COGS", codes "4", codes "3"]]⟩).2 =
    qualIdxs ⟨[codes "Item", codes "2023", codes "2022"],
      [[codes "Revenue", codes "10", codes "9"], [codes "COGS", codes "4", codes "3"]]⟩ 0 :=
  (C2_value_selection ⟨[codes "Item", codes "2023", codes "2022"],
      [[codes "Revenue", codes "10", codes "9"], [codes "COGS", codes "4", codes "3"]]⟩ 0
    (by decide) (by decide)).2.2.1 (by decide) (by decide)

/-- C5 counterexample: on a single-column table no value columns are
selected, the `dropna` guard (`len(new_cols) > 1`) is skipped, and rows whose
value cells are — vacuously — all null survive in the output, contradicting
the claim read over every RawTable. -/
theorem C5_counterexample :
    (normalizeStatement (some ⟨[codes "A"], [[codes "x"], [codes "y"]]⟩)
        (codes "Income Statement")).rows =
      [(codes "x", []), (codes "y", [])] ∧
    (∀ r ∈ (normalizeStatement (some ⟨[codes "A"], [[codes "x"], [codes "y"]]⟩)
        (codes "Income Statement")).rows, r.2.all Option.isNone = true) ∧
    (normalizeStatement (some ⟨[codes "A"], [[codes "x"], [codes "y"]]⟩)
        (codes "Income Statement")).rows ≠ [] := by decide

/-- C5 (amended): whenever at least two distinctly-named columns exist — so
that at least one value column is selected — the normalized rows are exactly
the per-row transforms (canonicalized label, coerced value cells in original
left-to-right value-column order) of the raw rows, kept iff some value cell
is non-null, in the original relative order; in particular the output is a
sublist of the transformed rows.  On a single-column table the source keeps
every row instead. -/
theorem C5_row_filter (t : RawTable) (stype : List Nat) (lab : Nat) (vals : List Nat)
    (hlen : 2 ≤ t.headers.length) (hnd : t.headers.Nodup) (hrows : t.rows ≠ [])
    (hp : pickLabelAndValues t = (some lab, vals)) :
    vals ≠ [] ∧
    (normalizeStatement (some t) stype).rows =
      (t.rows.map (tidyRow stype lab vals)).filter (fun p => p.2.any Option.isSome) ∧
    List.Sublist (normalizeStatement (some t) stype).rows
      (t.rows.map (tidyRow stype lab vals)) := by
  have hp1 : (pickLabelAndValues t).1 = some lab := by rw [hp]
  have hp2 : (pickLabelAndValues t).2 = vals := by rw [hp]
  have hl : lab < t.headers.length := pick_label_lt hp1
  have hn : ¬ t.headers.length = 0 := by omega
  have hvals : vals ≠ [] := by
    have hv : vals = (if qualIdxs t lab = [] then lastN 3 (nonLabelIdxs t lab)
        else lastN 3 (qualIdxs t lab)) := by
      rw [← hp2, pick_snd_eq t lab hn hp1, filter_scores_eq t lab hnd hl,
        filter_fallback_eq t lab hnd hl]
      by_cases hq : qualIdxs t lab = []
      · rw [if_pos hq, if_pos hq]
        exact lastN_of_le (lastN_length_le 3 _)
      · rw [if_neg hq, if_neg hq]
    have hNL : nonLabelIdxs t lab ≠ [] := by
      have hj : (if lab = 0 then 1 else 0) ∈ nonLabelIdxs t lab := by
        unfold nonLabelIdxs
        rw [List.mem_filter, List.mem_range]
        by_cases h0 : lab = 0
        · rw [if_pos h0]
          exact ⟨by omega, by simp [h0]⟩
        · rw [if_neg h0]
          exact ⟨by omega, by simp [Ne.symm h0]⟩
      exact List.ne_nil_of_mem hj
    rw [hv]
    by_cases hq : qualIdxs t lab = []
    · rw [if_pos hq]
      exact lastN_ne_nil (by omega) hNL
    · rw [if_neg hq]
      exact lastN_ne_nil (by omega) hq
  have hne : ¬ (t.rows = [] ∨ t.headers = []) := by
    rintro (h | h)
    · exact hrows h
    · rw [h] at hn
      exact hn rfl
  have hrows_eq : (normalizeStatement (some t) stype).rows =
      (t.rows.map (tidyRow stype lab vals)).filter (fun p => p.2.any Option.isSome) := by
    simp only [normalizeStatement, if_neg hne, hp, if_neg hvals]
  exact ⟨hvals, hrows_eq, by rw [hrows_eq]; exact List.filter_sublist _⟩

/-- Witness for C5 at a concrete two-column table: the all-null row is
dropped, the row with a numeric cell survives. -/
theorem C5_witness :
    (normalizeStatement (some ⟨[codes "Item", codes "2023"],
        [[codes "Total Revenues", codes "10"], [codes "Note", codes "n/a"]]⟩)
      (codes "Income Statement")).rows =
    ((⟨[codes "Item", codes "2023"],
        [[codes "Total Revenues", codes "10"], [codes "Note", codes "n/a"]]⟩ :
          RawTable).rows.map (tidyRow (codes "Income Statement") 0 [1])).filter
      (fun p => p.2.any Option.isSome) :=
  (C5_row_filter ⟨[codes "Item", codes "2023"],
      [[codes "Total Revenues", codes "10"], [codes "Note", codes "n/a"]]⟩
    (codes "Income Statement") 0 [1] (by decide) (by decide) (by decide) (by decide)).2.1

end FinAnalyzer
